import Mathlib

/-!
Verification of the `hashmemo` crate (`src/lib.rs`): a wrapper `HashMemo<T, H>`
that memoizes the 64-bit hash digest of its wrapped value in an atomic cache
word (`0` = not yet computed).

Shallow embedding conventions:
* `u64` values are `Nat`; where the source produces a fresh `u64`
  (`BuildHasher::hash_one`), we reduce modulo `2 ^ 64`.
* The `hasher : H` field (a `BuildHasher`) is modelled by the function it
  induces, `hash_one : T → Nat`.
* An external `Hasher` state (`state : &mut H2`) is modelled as the list of
  `write_u64` events fed to it; `state.write_u64(h)` appends `h`.
* The atomic cache is a plain `Nat` field; the sequential semantics of
  `load`/`compare_exchange` is explicit, and a separate interleaving model
  (`raceStep`/`raceRun`) covers concurrent callers.
-/

/-- Embeds `struct HashMemo<T, H> { value: T, hash: AtomicU64, hasher: H }`
(src/lib.rs lines 51-58).  `hash` is the atomic cache word (`0` means
"not yet computed"); `hasher` is the strategy's induced `hash_one`. -/
structure HashMemo (T : Type) where
  value : T
  hash : Nat
  hasher : T → Nat

/-- `compare_exchange(expected, new, Relaxed, Relaxed)` on an atomic word whose
current content is `cur`: the resulting content (the store happens only if
`cur = expected`). -/
def compareExchange (cur expected new : Nat) : Nat :=
  if cur = expected then new else cur

/-- Embeds `NonZeroU64::new(d).map(NonZeroU64::get).unwrap_or(u64::MIN | 1)`
(src/lib.rs lines 175-177): a computed digest of exactly `0` is remapped to
`u64::MIN | 1 = 1`; every other digest passes through. -/
def remapZero (d : Nat) : Nat :=
  if d = 0 then 1 else d

/-- Embeds `HashMemo::with_hasher` (src/lib.rs lines 120-126): stores the value
and strategy, cache initialised to `u64::MIN = 0`. -/
def HashMemo.with_hasher (value : T) (hasher : T → Nat) : HashMemo T :=
  { value := value, hash := 0, hasher := hasher }

/-- Embeds `HashMemo::new` (src/lib.rs lines 96-98), which delegates to
`with_hasher` with the crate's default strategy
`BuildHasherDefault::<DefaultHasher>::default()`.  The default strategy's
`hash_one` function is external to the crate (SipHash 1-3), so it is a
parameter `defaultHashOne` of the embedding. -/
def HashMemo.new (defaultHashOne : T → Nat) (value : T) : HashMemo T :=
  HashMemo.with_hasher value defaultHashOne

/-- Embeds `HashMemo::into_inner` (src/lib.rs lines 141-143). -/
def HashMemo.into_inner (m : HashMemo T) : T :=
  m.value

/-- Embeds `Borrow::<T>::borrow` (src/lib.rs lines 204-206): returns the wrapped
value (references are modelled by the values they point to). -/
def HashMemo.borrow (m : HashMemo T) : T :=
  m.value

/-- Embeds `AsRef::<T>::as_ref` (src/lib.rs lines 194-196). -/
def HashMemo.as_ref (m : HashMemo T) : T :=
  m.value

/-- Embeds `PartialEq::eq` (src/lib.rs lines 151-153): delegates to the wrapped
type's equality `beqT`. -/
def HashMemo.beq (beqT : T → T → Bool) (a b : HashMemo T) : Bool :=
  beqT a.value b.value

/-- Embeds `Ord::cmp` (src/lib.rs lines 75-77): delegates to the wrapped type's
`cmp`. -/
def HashMemo.cmp (cmpT : T → T → Ordering) (a b : HashMemo T) : Ordering :=
  cmpT a.value b.value

/-- Embeds `PartialOrd::partial_cmp` (src/lib.rs lines 65-67): delegates to the
wrapped type's `partial_cmp`. -/
def HashMemo.pcmp (pcmpT : T → T → Option Ordering) (a b : HashMemo T) : Option Ordering :=
  pcmpT a.value b.value

/-- Embeds `Clone::clone` (src/lib.rs lines 224-230): clones the value, copies
the current cache content (`AtomicU64::new(self.hash.load(Relaxed))`), and
clones the strategy.  `T::clone` and `H::clone` are modelled as the identity
on the pure values. -/
def HashMemo.clone (m : HashMemo T) : HashMemo T :=
  { value := m.value, hash := m.hash, hasher := m.hasher }

/-- Result of one call to `<HashMemo as Hash>::hash`: the wrapper afterwards
(the cache may have been written), the external hasher state afterwards, and
how many times the strategy was invoked on the wrapped value during the call
(`0` on the fast path, `1` on the slow path). -/
structure HashStep (T : Type) where
  memo : HashMemo T
  state : List Nat
  evals : Nat

/-- Embeds `<HashMemo as Hash>::hash` (src/lib.rs lines 168-186), sequential
semantics: load the cache; if nonzero, write it to `state` and return (fast
path); otherwise compute `hash_one(value)` (a `u64`, hence `% 2 ^ 64`), remap
a zero digest to `1`, `compare_exchange` it into the cache from `0`, and write
the computed digest to `state`. -/
def hashCall (m : HashMemo T) (state : List Nat) : HashStep T :=
  if m.hash ≠ 0 then
    { memo := m, state := state ++ [m.hash], evals := 0 }
  else
    let computed := remapZero (m.hasher m.value % 2 ^ 64)
    { memo := { m with hash := compareExchange m.hash 0 computed },
      state := state ++ [computed],
      evals := 1 }

/-- The digest a `hash` call on `m` feeds to the external state: the cache if
populated, otherwise the remapped strategy digest. -/
def currentDigest (m : HashMemo T) : Nat :=
  if m.hash ≠ 0 then m.hash else remapZero (m.hasher m.value % 2 ^ 64)

/-- Result of a sequence of `hash` calls on one wrapper instance: the final
wrapper, the list of per-call `write_u64` traces (each call starts from an
empty external state), and the total number of strategy invocations. -/
structure HashRun (T : Type) where
  memo : HashMemo T
  writes : List (List Nat)
  evals : Nat

/-- `n` successive calls to `<HashMemo as Hash>::hash` on the same wrapper
instance, each into a fresh external hasher state. -/
def hashCalls : HashMemo T → Nat → HashRun T
  | m, 0 => { memo := m, writes := [], evals := 0 }
  | m, n + 1 =>
    let s := hashCall m []
    let r := hashCalls s.memo n
    { memo := r.memo, writes := s.state :: r.writes, evals := s.evals + r.evals }

/-- The `write_u64` trace of `<u64 as Hash>::hash`: `state.write_u64(*self)`
(Rust std; the wrapped type's own hash contribution for `T = u64`). -/
def u64HashWrites (v : Nat) : List Nat :=
  [v % 2 ^ 64]

/-- The `write_u64` trace of `<(u64, u64) as Hash>::hash`: the derived tuple
implementation hashes each component in order (Rust std). -/
def pairU64HashWrites (p : Nat × Nat) : List Nat :=
  u64HashWrites p.1 ++ u64HashWrites p.2

/-- Models `BuildHasher::hash_one` for a strategy built from a stream-digest
function `digestOf` (the built `Hasher`'s `finish` over the stream written to
it) and the wrapped type's `Hash` trace `hw`:
`hash_one(v) = finish(write(build_hasher(), v))`. -/
def buildHashOne (digestOf : List Nat → Nat) (hw : T → List Nat) : T → Nat :=
  fun v => digestOf (hw v)

/-- One thread's progress through `<HashMemo as Hash>::hash` in the
interleaving model: `start` (has not yet loaded the cache), `pending d` (loaded
`0`, computed the remapped digest `d`, about to `compare_exchange`), `done w`
(finished, having fed `w` to its own external hasher state). -/
inductive ThreadState where
  | start : ThreadState
  | pending (d : Nat) : ThreadState
  | done (w : Nat) : ThreadState
deriving DecidableEq

/-- Whether a thread has finished its `hash` call. -/
def ThreadState.isDone : ThreadState → Bool
  | ThreadState.done _ => true
  | _ => false

/-- Shared configuration of the race: the atomic cache word, each thread's
state, and how many `compare_exchange` stores have succeeded. -/
structure RaceState where
  cache : Nat
  threads : List ThreadState
  stores : Nat

/-- One atomic step of thread `i` running `<HashMemo as Hash>::hash` on the
shared wrapper `m` (src/lib.rs lines 168-186).  A `start` thread performs the
relaxed load: if it sees a nonzero cache it writes that value to its own state
and finishes (fast path); if it sees `0` it computes the remapped digest
(thread-local work, folded into this step).  A `pending` thread performs the
`compare_exchange` from `0` (counting a success) and writes its computed digest
to its own state.  Out-of-range or finished thread indices do nothing. -/
def raceStep (m : HashMemo T) (st : RaceState) (i : Nat) : RaceState :=
  match st.threads.get? i with
  | some ThreadState.start =>
    if st.cache ≠ 0 then
      { st with threads := st.threads.set i (ThreadState.done st.cache) }
    else
      { st with
          threads :=
            st.threads.set i (ThreadState.pending (remapZero (m.hasher m.value % 2 ^ 64))) }
  | some (ThreadState.pending c) =>
    { cache := compareExchange st.cache 0 c,
      threads := st.threads.set i (ThreadState.done c),
      stores := st.stores + (if st.cache = 0 then 1 else 0) }
  | _ => st

/-- Run a schedule (a list of thread indices, each performing its next atomic
step) from a race configuration. -/
def raceRun (m : HashMemo T) (st : RaceState) : List Nat → RaceState
  | [] => st
  | i :: rest => raceRun m (raceStep m st i) rest

/-- Initial race configuration: `n` threads about to call `hash` on the shared
wrapper `m`, whose cache word is `m.hash`; no store has happened yet. -/
def raceInit (m : HashMemo T) (n : Nat) : RaceState :=
  { cache := m.hash, threads := List.replicate n ThreadState.start, stores := 0 }

/-- Per-thread part of the race invariant for digest `d`: a pending thread has
computed exactly `d`, and a finished thread wrote `d` and can only have
finished once the cache holds `d`. -/
def threadOK (d cache : Nat) : ThreadState → Prop
  | ThreadState.start => True
  | ThreadState.pending c => c = d
  | ThreadState.done w => w = d ∧ cache = d

/-- Race invariant for digest `d`: the cache is `0` or `d`, the success count
matches the cache state, and every thread satisfies `threadOK`. -/
def RaceInv (d : Nat) (st : RaceState) : Prop :=
  (st.cache = 0 ∨ st.cache = d) ∧
  (st.cache = 0 → st.stores = 0) ∧
  (st.cache = d → st.stores = 1) ∧
  ∀ t ∈ st.threads, threadOK d st.cache t

theorem remapZero_ne_zero (d : Nat) : remapZero d ≠ 0 := by
  unfold remapZero
  by_cases h : d = 0 <;> simp [h]

theorem currentDigest_ne_zero (m : HashMemo T) : currentDigest m ≠ 0 := by
  unfold currentDigest
  by_cases h : m.hash = 0
  · simp [h, remapZero_ne_zero]
  · simp [h]

theorem hashCall_eq (m : HashMemo T) (s : List Nat) :
    hashCall m s =
      { memo := { m with hash := currentDigest m },
        state := s ++ [currentDigest m],
        evals := if m.hash = 0 then 1 else 0 } := by
  unfold hashCall currentDigest compareExchange
  by_cases h : m.hash = 0 <;> simp [h]

theorem hashCall_memo_hash (m : HashMemo T) (s : List Nat) :
    (hashCall m s).memo.hash = currentDigest m := by
  rw [hashCall_eq]

theorem currentDigest_of_hash_ne_zero (m : HashMemo T) (h : m.hash ≠ 0) :
    currentDigest m = m.hash := by
  unfold currentDigest
  simp [h]

theorem currentDigest_hashCall (m : HashMemo T) (s : List Nat) :
    currentDigest (hashCall m s).memo = currentDigest m := by
  rw [hashCall_eq]
  exact currentDigest_of_hash_ne_zero _ (currentDigest_ne_zero m)

theorem hashCalls_succ (m : HashMemo T) (n : Nat) :
    hashCalls m (n + 1) =
      { memo := (hashCalls (hashCall m []).memo n).memo,
        writes := (hashCall m []).state :: (hashCalls (hashCall m []).memo n).writes,
        evals := (hashCall m []).evals + (hashCalls (hashCall m []).memo n).evals } := rfl

theorem hashCalls_writes (m : HashMemo T) (n : Nat) :
    (hashCalls m n).writes = List.replicate n [currentDigest m] := by
  induction n generalizing m with
  | zero => rfl
  | succ n ih =>
    rw [hashCalls_succ]
    simp only [ih (hashCall m []).memo, currentDigest_hashCall]
    rw [hashCall_eq]
    simp [List.replicate_succ]

theorem hashCalls_evals_of_hash_ne_zero (m : HashMemo T) (n : Nat) (h : m.hash ≠ 0) :
    (hashCalls m n).evals = 0 := by
  induction n generalizing m with
  | zero => rfl
  | succ n ih =>
    rw [hashCalls_succ]
    rw [ih (hashCall m []).memo (by rw [hashCall_memo_hash]; exact currentDigest_ne_zero m)]
    rw [hashCall_eq]
    simp [h]

theorem hashCalls_evals_succ (m : HashMemo T) (n : Nat) :
    (hashCalls m (n + 1)).evals = if m.hash = 0 then 1 else 0 := by
  rw [hashCalls_succ]
  rw [hashCalls_evals_of_hash_ne_zero _ n (by rw [hashCall_memo_hash]; exact currentDigest_ne_zero m)]
  rw [hashCall_eq]
  simp

theorem currentDigest_hashCalls (m : HashMemo T) (n : Nat) :
    currentDigest (hashCalls m n).memo = currentDigest m := by
  induction n generalizing m with
  | zero => rfl
  | succ n ih =>
    rw [hashCalls_succ]
    show currentDigest (hashCalls (hashCall m []).memo n).memo = currentDigest m
    rw [ih, currentDigest_hashCall]

/-- C2: in the hash operation with an unpopulated cache, a computed digest of
exactly `0` is remapped to `1` before storage and before use: `1` (not `0`) is
both stored in the cache and fed to the external hasher state, re-hashing the
wrapper feeds that same `1` again, and every nonzero computed digest is stored
and fed unmodified. -/
theorem zero_digest_remapped (m : HashMemo T) (s s2 : List Nat) (h0 : m.hash = 0) :
    (m.hasher m.value % 2 ^ 64 = 0 →
      (hashCall m s).state = s ++ [1] ∧
      (hashCall m s).memo.hash = 1 ∧
      (hashCall (hashCall m s).memo s2).state = s2 ++ [1] ∧
      ∀ k, (hashCalls (hashCall m s).memo k).writes = List.replicate k [1]) ∧
    (m.hasher m.value % 2 ^ 64 ≠ 0 →
      (hashCall m s).state = s ++ [m.hasher m.value % 2 ^ 64] ∧
      (hashCall m s).memo.hash = m.hasher m.value % 2 ^ 64) := by
  have hc : currentDigest m = remapZero (m.hasher m.value % 2 ^ 64) := by
    unfold currentDigest
    simp [h0]
  constructor
  · intro hz
    have hd : currentDigest m = 1 := by
      rw [hc, hz]
      decide
    refine ⟨?_, ?_, ?_, ?_⟩
    · rw [hashCall_eq, hd]
    · rw [hashCall_memo_hash, hd]
    · rw [hashCall_eq (hashCall m s).memo s2, currentDigest_hashCall, hd]
    · intro k
      rw [hashCalls_writes, currentDigest_hashCall, hd]
  · intro hnz
    have hd : currentDigest m = m.hasher m.value % 2 ^ 64 := by
      rw [hc]
      unfold remapZero
      rw [if_neg hnz]
    exact ⟨by rw [hashCall_eq, hd], by rw [hashCall_memo_hash, hd]⟩

theorem zero_digest_remapped_witness :
    (hashCall (HashMemo.with_hasher 5 (fun _ => 0)) []).state = [1] ∧
    (hashCall (HashMemo.with_hasher 5 (fun _ => 0)) []).memo.hash = 1 ∧
    (hashCall (hashCall (HashMemo.with_hasher 5 (fun _ => 0)) []).memo []).state = [1] ∧
    (hashCalls (hashCall (HashMemo.with_hasher 5 (fun _ => 0)) []).memo 3).writes =
      List.replicate 3 [1] ∧
    (hashCall (HashMemo.with_hasher 5 (fun _ => 7)) []).state = [7] ∧
    (hashCall (HashMemo.with_hasher 5 (fun _ => 7)) []).memo.hash = 7 := by
  have h1 := (zero_digest_remapped (HashMemo.with_hasher 5 (fun _ => 0)) [] [] rfl).1 (by decide)
  have h2 := (zero_digest_remapped (HashMemo.with_hasher 5 (fun _ => 7)) [] [] rfl).2 (by decide)
  exact ⟨h1.1, h1.2.1, h1.2.2.1, h1.2.2.2 3, h2.1, h2.2⟩

/-- C3 (invariant I1): the cache is monotonic — a hash call on a wrapper whose
cache is already nonzero leaves it unchanged, and the only transition is the
single compare-and-swap from `0` to the nonzero remapped digest. -/
theorem cache_monotonic (m : HashMemo T) (s : List Nat) :
    (m.hash ≠ 0 → (hashCall m s).memo.hash = m.hash) ∧
    (m.hash = 0 →
      (hashCall m s).memo.hash = remapZero (m.hasher m.value % 2 ^ 64) ∧
      (hashCall m s).memo.hash ≠ 0) := by
  constructor
  · intro h
    rw [hashCall_memo_hash, currentDigest_of_hash_ne_zero m h]
  · intro h
    constructor
    · rw [hashCall_memo_hash]
      unfold currentDigest
      simp [h]
    · rw [hashCall_memo_hash]
      exact currentDigest_ne_zero m

theorem cache_monotonic_witness :
    (hashCall (⟨7, 5, fun v => v⟩ : HashMemo Nat) []).memo.hash = 5 ∧
    (hashCall (⟨7, 0, fun v => v⟩ : HashMemo Nat) []).memo.hash =
      remapZero ((fun v => v) 7 % 2 ^ 64) ∧
    (hashCall (⟨7, 0, fun v => v⟩ : HashMemo Nat) []).memo.hash ≠ 0 :=
  ⟨(cache_monotonic (⟨7, 5, fun v => v⟩ : HashMemo Nat) []).1 (by decide),
   ((cache_monotonic (⟨7, 0, fun v => v⟩ : HashMemo Nat) []).2 rfl).1,
   ((cache_monotonic (⟨7, 0, fun v => v⟩ : HashMemo Nat) []).2 rfl).2⟩

/-- C4 (invariant I3): equality, `cmp` and `partial_cmp` between two wrappers
delegate exactly to the wrapped values' own comparators, whatever the cache
contents `c1`, `c2` and strategies `f1`, `f2` of the two instances are — in
particular `wrap(a) == wrap(b)` returns exactly `a == b`. -/
theorem eq_ord_transparent (beqT : T → T → Bool) (cmpT : T → T → Ordering)
    (pcmpT : T → T → Option Ordering) (a b : T) (c1 c2 : Nat) (f1 f2 : T → Nat) :
    HashMemo.beq beqT ⟨a, c1, f1⟩ ⟨b, c2, f2⟩ = beqT a b ∧
    HashMemo.cmp cmpT ⟨a, c1, f1⟩ ⟨b, c2, f2⟩ = cmpT a b ∧
    HashMemo.pcmp pcmpT ⟨a, c1, f1⟩ ⟨b, c2, f2⟩ = pcmpT a b :=
  ⟨rfl, rfl, rfl⟩

/-- C5: determinism across repeated calls — hashing the same wrapper instance
`n` times in sequence feeds exactly one `write_u64` per call, and it is the
identical digest `currentDigest m` on every call (so the first call's digest
equals every later call's). -/
theorem hash_deterministic_across_calls (m : HashMemo T) (n : Nat) :
    (hashCalls m n).writes = List.replicate n [currentDigest m] :=
  hashCalls_writes m n

/-- C6: cloning duplicates the wrapped value and the strategy and copies the
current cache content verbatim; hence hashing the clone of an already-hashed
wrapper feeds the same digest to the state as hashing the original. -/
theorem clone_preserves_cache_and_digest (m : HashMemo T) (s : List Nat) :
    (HashMemo.clone m).value = m.value ∧
    (HashMemo.clone m).hash = m.hash ∧
    (HashMemo.clone m).hasher = m.hasher ∧
    (hashCall (HashMemo.clone (hashCall m []).memo) s).state =
      (hashCall (hashCall m []).memo s).state :=
  ⟨rfl, rfl, rfl, rfl⟩

/-- C7: fast path and single computation — when the cache is nonzero at the
start of a `hash` call, the call feeds the cached value into the state and
returns with zero strategy invocations and the wrapper untouched; and for any
`n ≥ 1` calls on a freshly constructed wrapper, the strategy is invoked exactly
once in total. -/
theorem fast_path_single_computation (T : Type) :
    (∀ (m : HashMemo T) (s : List Nat), m.hash ≠ 0 →
      hashCall m s = { memo := m, state := s ++ [m.hash], evals := 0 }) ∧
    (∀ (v : T) (f : T → Nat) (n : Nat), 1 ≤ n →
      (hashCalls (HashMemo.with_hasher v f) n).evals = 1) := by
  constructor
  · intro m s h
    unfold hashCall
    simp [h]
  · intro v f n hn
    obtain ⟨k, rfl⟩ : ∃ k, n = k + 1 := ⟨n - 1, by omega⟩
    rw [hashCalls_evals_succ]
    rfl

theorem fast_path_single_computation_witness :
    hashCall (⟨3, 9, fun v => v⟩ : HashMemo Nat) [] =
      { memo := ⟨3, 9, fun v => v⟩, state := [9], evals := 0 } ∧
    (hashCalls (HashMemo.with_hasher 3 (fun v => v)) 10).evals = 1 :=
  ⟨(fast_path_single_computation Nat).1 ⟨3, 9, fun v => v⟩ [] (by decide),
   (fast_path_single_computation Nat).2 3 (fun v => v) 10 (by decide)⟩

/-- C8: transparent unwrap — `into_inner(wrap(v))` returns the wrapped value
unchanged, for any value and any default strategy, with no failure mode. -/
theorem into_inner_transparent (d : T → Nat) (v : T) :
    HashMemo.into_inner (HashMemo.new d v) = v :=
  rfl

/-- C10: cross-instance hash consistency — if `a == b` under the wrapped
type's equality and that equality implies identical `Hash` contributions, then
two independently constructed wrappers of `a` and `b` under the same
stream-digest strategy feed the identical digest into any hasher state, no
matter how many times (`k1`, `k2`, possibly zero) either instance was hashed
before. -/
theorem cross_instance_hash_consistency (beqT : T → T → Bool)
    (digestOf : List Nat → Nat) (hw : T → List Nat) (a b : T)
    (k1 k2 : Nat) (s1 s2 : List Nat)
    (hab : beqT a b = true)
    (hcons : ∀ x y, beqT x y = true → hw x = hw y) :
    (hashCall (hashCalls (HashMemo.new (buildHashOne digestOf hw) a) k1).memo s1).state =
      s1 ++ [remapZero (digestOf (hw a) % 2 ^ 64)] ∧
    (hashCall (hashCalls (HashMemo.new (buildHashOne digestOf hw) b) k2).memo s2).state =
      s2 ++ [remapZero (digestOf (hw a) % 2 ^ 64)] := by
  have hwab : hw a = hw b := hcons a b hab
  constructor
  · rw [hashCall_eq, currentDigest_hashCalls]
    rfl
  · rw [hashCall_eq, currentDigest_hashCalls]
    show s2 ++ [remapZero (digestOf (hw b) % 2 ^ 64)] = _
    rw [← hwab]

theorem cross_instance_hash_consistency_witness :
    ((2 : Nat) == 2) = true ∧
    (hashCall (hashCalls (HashMemo.new (buildHashOne List.length (fun v => [v])) (2 : Nat)) 0).memo []).state = [1] ∧
    (hashCall (hashCalls (HashMemo.new (buildHashOne List.length (fun v => [v])) (2 : Nat)) 3).memo []).state = [1] := by
  have h := cross_instance_hash_consistency (fun x y => x == y) List.length
    (fun v => [v]) 2 2 0 3 [] [] (by decide)
    (fun x y hx => by
      simp only [beq_iff_eq] at hx
      rw [hx])
  exact ⟨by decide, h.1, h.2⟩

/-- C1 fails on the code: hashing the wrapper `HashMemo::new((0u64, 0u64))`
into a hasher state contributes exactly one `write_u64` — the memoized digest,
whatever the default strategy `f` computes — while hashing the borrowed inner
value `(0u64, 0u64)` contributes its own two `write_u64` events, so the two
contributions are never equal and the Borrow-contract hash consistency needed
for heterogeneous lookup is violated. -/
theorem borrow_hash_contribution_mismatch (f : Nat × Nat → Nat) (s : List Nat) :
    (hashCall (HashMemo.new f (0, 0)) s).state = s ++ [remapZero (f (0, 0) % 2 ^ 64)] ∧
    (hashCall (HashMemo.new f (0, 0)) s).state ≠ s ++ pairU64HashWrites (0, 0) := by
  constructor
  · rw [hashCall_eq]
    rfl
  · rw [hashCall_eq]
    intro hEq
    have hlen := congrArg List.length hEq
    simp only [pairU64HashWrites, u64HashWrites, List.length_append, List.length_cons,
      List.length_nil] at hlen
    omega

theorem threadOK_to_d {d cache : Nat} {t : ThreadState} (h : threadOK d cache t) :
    threadOK d d t := by
  cases t with
  | start => trivial
  | pending c => exact h
  | done w => exact ⟨h.1, rfl⟩

theorem raceStep_length (m : HashMemo T) (st : RaceState) (i : Nat) :
    (raceStep m st i).threads.length = st.threads.length := by
  unfold raceStep
  split
  · split
    · simp [List.length_set]
    · simp [List.length_set]
  · simp [List.length_set]
  · rfl

theorem raceRun_length (m : HashMemo T) (st : RaceState) (sched : List Nat) :
    (raceRun m st sched).threads.length = st.threads.length := by
  induction sched generalizing st with
  | nil => rfl
  | cons i rest ih =>
    show (raceRun m (raceStep m st i) rest).threads.length = _
    rw [ih (raceStep m st i), raceStep_length]

theorem raceStep_inv (m : HashMemo T) (st : RaceState) (i : Nat) (d : Nat)
    (hdig : d = remapZero (m.hasher m.value % 2 ^ 64))
    (h : RaceInv d st) : RaceInv d (raceStep m st i) := by
  have hd : d ≠ 0 := by
    rw [hdig]
    exact remapZero_ne_zero _
  obtain ⟨hco, hs0, hs1, hts⟩ := h
  unfold raceStep
  rw [← hdig]
  split
  · -- loaded thread state: start
    split
    · -- fast path: the load saw a nonzero cache
      rename_i hc
      have hcd : st.cache = d := hco.resolve_left hc
      refine ⟨hco, hs0, hs1, ?_⟩
      intro t ht
      rcases List.mem_or_eq_of_mem_set ht with hmem | rfl
      · exact hts t hmem
      · exact ⟨hcd, hcd⟩
    · -- the load saw 0: the thread computes the digest
      refine ⟨hco, hs0, hs1, ?_⟩
      intro t ht
      rcases List.mem_or_eq_of_mem_set ht with hmem | rfl
      · exact hts t hmem
      · exact rfl
  · -- loaded thread state: pending c, the thread performs the compare-exchange
    rename_i c hget
    have hcdd : c = d := hts _ (List.get?_mem hget)
    rcases hco with hc0 | hcd
    · have hcc : compareExchange st.cache 0 c = d := by
        rw [hc0]
        unfold compareExchange
        simp [hcdd]
      refine ⟨Or.inr hcc, ?_, ?_, ?_⟩
      · intro hz
        rw [hcc] at hz
        exact absurd hz hd
      · intro _
        show st.stores + (if st.cache = 0 then 1 else 0) = 1
        rw [hs0 hc0, if_pos hc0]
      · intro t ht
        rcases List.mem_or_eq_of_mem_set ht with hmem | rfl
        · show threadOK d (compareExchange st.cache 0 c) t
          rw [hcc]
          exact threadOK_to_d (hts t hmem)
        · show threadOK d (compareExchange st.cache 0 c) (ThreadState.done c)
          rw [hcc]
          exact ⟨hcdd, rfl⟩
    · have hnz : ¬st.cache = 0 := by
        rw [hcd]
        exact hd
      have hcc : compareExchange st.cache 0 c = d := by
        rw [hcd]
        unfold compareExchange
        rw [if_neg hd]
      refine ⟨Or.inr hcc, ?_, ?_, ?_⟩
      · intro hz
        rw [hcc] at hz
        exact absurd hz hd
      · intro _
        show st.stores + (if st.cache = 0 then 1 else 0) = 1
        rw [hs1 hcd, if_neg hnz]
      · intro t ht
        rcases List.mem_or_eq_of_mem_set ht with hmem | rfl
        · show threadOK d (compareExchange st.cache 0 c) t
          rw [hcc]
          exact threadOK_to_d (hts t hmem)
        · show threadOK d (compareExchange st.cache 0 c) (ThreadState.done c)
          rw [hcc]
          exact ⟨hcdd, rfl⟩
  · -- finished or out-of-range thread: no step
    exact ⟨hco, hs0, hs1, hts⟩

theorem raceRun_inv (m : HashMemo T) (st : RaceState) (sched : List Nat) (d : Nat)
    (hdig : d = remapZero (m.hasher m.value % 2 ^ 64))
    (h : RaceInv d st) : RaceInv d (raceRun m st sched) := by
  induction sched generalizing st with
  | nil => exact h
  | cons i rest ih =>
    show RaceInv d (raceRun m (raceStep m st i) rest)
    exact ih _ (raceStep_inv m st i d hdig h)

theorem raceInit_inv (v : T) (f : T → Nat) (n : Nat) (d : Nat)
    (hdig : d = remapZero (f v % 2 ^ 64)) :
    RaceInv d (raceInit (HashMemo.with_hasher v f) n) := by
  have hd : d ≠ 0 := by
    rw [hdig]
    exact remapZero_ne_zero _
  refine ⟨Or.inl rfl, fun _ => rfl, ?_, ?_⟩
  · intro hc
    exact absurd hc.symm hd
  · intro t ht
    rw [List.eq_of_mem_replicate ht]
    trivial

/-- C9: concurrent race convergence — for any number of threads concurrently
calling the hash operation on one shared, freshly constructed wrapper, under
every interleaving: each finished thread fed exactly the wrapper's digest into
its own hasher state, and once all threads have completed (with at least one
thread) the cache holds that common digest and exactly one compare-exchange
store won. -/
theorem race_convergence (v : T) (f : T → Nat) (n : Nat) (sched : List Nat) :
    (∀ t ∈ (raceRun (HashMemo.with_hasher v f)
        (raceInit (HashMemo.with_hasher v f) n) sched).threads,
      ∀ w, t = ThreadState.done w → w = currentDigest (HashMemo.with_hasher v f)) ∧
    ((∀ t ∈ (raceRun (HashMemo.with_hasher v f)
          (raceInit (HashMemo.with_hasher v f) n) sched).threads, t.isDone = true) →
      1 ≤ n →
      (raceRun (HashMemo.with_hasher v f) (raceInit (HashMemo.with_hasher v f) n) sched).cache =
        currentDigest (HashMemo.with_hasher v f) ∧
      (raceRun (HashMemo.with_hasher v f) (raceInit (HashMemo.with_hasher v f) n) sched).stores =
        1) := by
  obtain ⟨hco, hs0, hs1, hts⟩ :=
    raceRun_inv (HashMemo.with_hasher v f) (raceInit (HashMemo.with_hasher v f) n) sched
      (currentDigest (HashMemo.with_hasher v f)) rfl (raceInit_inv v f n _ rfl)
  constructor
  · intro t ht w hw
    have hok := hts t ht
    rw [hw] at hok
    exact hok.1
  · intro hall hn
    have hlen : (raceRun (HashMemo.with_hasher v f)
        (raceInit (HashMemo.with_hasher v f) n) sched).threads.length = n := by
      rw [raceRun_length]
      exact List.length_replicate n ThreadState.start
    obtain ⟨t, ht⟩ : ∃ t, t ∈ (raceRun (HashMemo.with_hasher v f)
        (raceInit (HashMemo.with_hasher v f) n) sched).threads := by
      apply List.exists_mem_of_ne_nil
      intro hnil
      rw [hnil] at hlen
      simp at hlen
      omega
    have hdone := hall t ht
    cases t with
    | start => exact absurd hdone (by simp [ThreadState.isDone])
    | pending c => exact absurd hdone (by simp [ThreadState.isDone])
    | done w =>
      have hok := hts _ ht
      exact ⟨hok.2, hs1 hok.2⟩

theorem race_convergence_witness :
    (raceRun (HashMemo.with_hasher (3 : Nat) (fun x => x))
        (raceInit (HashMemo.with_hasher (3 : Nat) (fun x => x)) 2) [0, 1, 0, 1]).cache =
      currentDigest (HashMemo.with_hasher (3 : Nat) (fun x => x)) ∧
    (raceRun (HashMemo.with_hasher (3 : Nat) (fun x => x))
        (raceInit (HashMemo.with_hasher (3 : Nat) (fun x => x)) 2) [0, 1, 0, 1]).stores = 1 :=
  (race_convergence 3 (fun x => x) 2 [0, 1, 0, 1]).2 (by decide) (by decide)

theorem borrow_hash_contribution_mismatch_witness :
    (hashCall (HashMemo.new (fun _ => 5) ((0 : Nat), (0 : Nat))) []).state = [5] ∧
    (hashCall (HashMemo.new (fun _ => 5) ((0 : Nat), (0 : Nat))) []).state ≠
      pairU64HashWrites (0, 0) :=
  ⟨(borrow_hash_contribution_mismatch (fun _ => 5) []).1,
   (borrow_hash_contribution_mismatch (fun _ => 5) []).2⟩
